import Mathlib

/-!
# Verification of the qubit-layout benchmarking core

A shallow embedding of the layout-search and topology-generation logic of
the benchmarked repository (files `architectures.py`, `mappings.py`,
`utils.py`).  Edges of a coupling map are modelled as pairs of natural
numbers (the Python code uses two-element lists).  The external router's
swap count is an abstract function, and Python's global random generator
is an abstract state machine, both passed as parameters.
-/

namespace QLayout

/-- An edge of a coupling map: `[a, b]` in Python becomes `(a, b)`. -/
abbrev Edge := Nat × Nat

/-- A permutation of physical-qubit indices, as produced by
`itertools.permutations(range(no_phys_qubits))`. -/
abbrev Perm := List Nat

/-- The permutation-to-swap-count table (`result_dict`); Python keeps it as a
dict whose keys are the distinct permutations in insertion order, which an
association list represents faithfully. -/
abbrev Table := List (Perm × Nat)

/-! ## Topology generation (`architectures.py`) -/

/-- `LineArchitecture.get_topology`: `nx.path_graph(system_size)` edges,
`[list(e) for e in graph.edges]` — each link `(i, i+1)` is emitted once, in
that single direction. -/
def line_topology (system_size : Nat) : List Edge :=
  (List.range (system_size - 1)).map (fun i => (i, i + 1))

/-- The forward edges of `nx.grid_2d_graph(m, n)` after
`convert_node_labels_to_integers` (node `(i, j)` becomes `i*n + j`):
for each node in row-major order, the edge to the cell below, then the edge
to the cell on the right, matching networkx's edge-iteration order. -/
def grid_forward (m n : Nat) : List Edge :=
  (List.range m).flatMap (fun i => (List.range n).flatMap (fun j =>
    (if i + 1 < m then [(i * n + j, (i + 1) * n + j)] else []) ++
    (if j + 1 < n then [(i * n + j, i * n + j + 1)] else [])))

/-- `Grid.get_topology`: the networkx edge list followed by the explicitly
appended reversed copies (`to_add`). -/
def grid_topology (m n : Nat) : List Edge :=
  grid_forward m n ++ (grid_forward m n).map (fun e => (e.2, e.1))

/-- Edges of `nx.path_graph(27)` relabelled by `+ offset`
(used by `get_osprey_topology` for each 27-node row). -/
def pathEdgesAt (offset : Nat) : List Edge :=
  (List.range 26).map (fun i => (offset + i, offset + i + 1))

/-- The bridge edges added in iteration `k` of the osprey row loop:
`connection_range` is `range(0, 25, 4)` for even `k` and `range(2, 27, 4)`
for odd `k`; the `cursor` into `intermediate_nodes = range(433 - 12*7, 433)`
stands at `7*k` when iteration `k` starts.  Each connection appends the
edge to the current row, the reverse, the edge to the previous row, and its
reverse, in that order. -/
def ospreyRowBridges (k : Nat) : List Edge :=
  let ms : List Nat := if k % 2 = 0 then [0, 4, 8, 12, 16, 20, 24] else [2, 6, 10, 14, 18, 22, 26]
  (List.range 7).flatMap (fun j =>
    let inter := 349 + 7 * k + j
    let m := ms.getD j 0
    [((k + 1) * 27 + m, inter), (inter, (k + 1) * 27 + m),
     (k * 27 + m, inter), (inter, k * 27 + m)])

/-- The osprey `coupling_list` right before the two `remove` calls: the
first path row (offset 0, emitted once when `prev_path is None`), then for
each of the 12 loop iterations the current path row (offset `(k+1)*27`)
followed by that iteration's bridge edges. -/
def ospreyBase : List Edge :=
  pathEdgesAt 0 ++
    (List.range 12).flatMap (fun k => pathEdgesAt ((k + 1) * 27) ++ ospreyRowBridges k)

/-- The osprey `coupling_list` after `remove([25, 26])` and
`remove([no_rows*27, no_rows*27+1])` (first occurrences removed). -/
def ospreyPruned : List Edge :=
  (ospreyBase.erase (25, 26)).erase (12 * 27, 12 * 27 + 1)

/-- `HeavyHexArchitecture.get_osprey_topology`: remove the two edges, then
append the reversed copy of every remaining edge ("make topology
symmetric"). -/
def get_osprey_topology : List Edge :=
  ospreyPruned ++ ospreyPruned.map (fun e => (e.2, e.1))

/-- `HeavyHexArchitecture._create_connectivity_chain(begin, end)`: for each
`idx` in `range(begin, end)` append `[idx, idx+1]` and `[idx+1, idx]`. -/
def create_connectivity_chain (b e : Nat) : List Edge :=
  (List.range (e - b)).flatMap (fun i => [(b + i, b + i + 1), (b + i + 1, b + i)])

/-- `HeavyHexArchitecture._create_vertical_chain(indices)`: consecutive
pairs of the index list, both directions each. -/
def create_vertical_chain (indices : List Nat) : List Edge :=
  (List.range (indices.length - 1)).flatMap (fun k =>
    [(indices.getD k 0, indices.getD (k + 1) 0), (indices.getD (k + 1) 0, indices.getD k 0)])

/-- `HeavyHexArchitecture.get_hummingbird_topology` (size 65): five
horizontal chains plus, for each starting set `[q1, q2, q3]`, three vertical
chains at offsets `+0`, `(+4,+1,+4)`, `(+8,+2,+8)`. -/
def get_hummingbird_topology : List Edge :=
  create_connectivity_chain 0 9 ++ create_connectivity_chain 13 23 ++
  create_connectivity_chain 27 37 ++ create_connectivity_chain 41 51 ++
  create_connectivity_chain 55 64 ++
  ([[0, 10, 13], [15, 24, 29], [27, 38, 41], [43, 52, 56]] : List (List Nat)).flatMap
    (fun s =>
      let q1 := s.getD 0 0
      let q2 := s.getD 1 0
      let q3 := s.getD 2 0
      create_vertical_chain [q1, q2, q3] ++
      create_vertical_chain [q1 + 4, q2 + 1, q3 + 4] ++
      create_vertical_chain [q1 + 8, q2 + 2, q3 + 8])

/-- The ring of 8 qubits for ring index `k` inside
`RigettiArchitecture._create_row_rings`, plus (for `k ≠ 0`) the cross links
to the previous ring, in source order. -/
def rigetti_ring_chunk (k : Nat) : List Edge :=
  ((List.range 8).flatMap (fun i =>
    let idx := k * 8 + i
    if i = 7 then [(idx, idx - 7), (idx - 7, idx)]
    else [(idx, idx + 1), (idx + 1, idx)])) ++
  (if k ≠ 0 then
    [((k - 1) * 8 + 2, k * 8 + 7), (k * 8 + 7, (k - 1) * 8 + 2),
     ((k - 1) * 8 + 3, k * 8 + 6), (k * 8 + 6, (k - 1) * 8 + 3)]
   else [])

/-- `RigettiArchitecture._create_row_rings(row_idx)`: `n` rings with their
cross links, every index offset by `row_idx * n * 8`. -/
def create_row_rings (row_idx n : Nat) : List Edge :=
  ((List.range n).flatMap rigetti_ring_chunk).map
    (fun e => (row_idx * n * 8 + e.1, row_idx * n * 8 + e.2))

/-- `RigettiArchitecture.get_topology`: rows in order, each followed (for
`row_idx ≠ 0`) by the vertical links between corresponding rings of the row
and its predecessor. -/
def rigetti_topology (m n : Nat) : List Edge :=
  (List.range m).flatMap (fun row_idx =>
    create_row_rings row_idx n ++
    (if row_idx ≠ 0 then
      (List.range n).flatMap (fun ring_idx =>
        let prev_node := (ring_idx + row_idx * n) * 8
        let curr_node := (ring_idx + (row_idx - 1) * n) * 8
        [(prev_node + 5, curr_node), (curr_node, prev_node + 5),
         (prev_node + 4, curr_node + 1), (curr_node + 1, prev_node + 4)])
     else []))

/-! ## Architecture constructors and their validity checks

Python signals invalid sizes with `assert` (Grid, Rigetti) or `exit(...)`
(SquareGrid, HeavyHex) before the base-class constructor computes the
topology; we model the fallible constructors with `Option`, `none` meaning
the construction aborted with no usable object. -/

structure Arch where
  system_size : Nat
  name : String
  coupling_map : List Edge

/-- `Grid.__init__`: requires `system_size == m * n`. -/
def mkGrid (system_size m n : Nat) : Option Arch :=
  if system_size = m * n then
    some { system_size := system_size, name := "grid", coupling_map := grid_topology m n }
  else none

/-- `SquareGrid.__init__`: requires `sqrt(system_size)` to be an integer
(modelled with the exact integer square root; Python tests
`np.sqrt(system_size).is_integer()`), then delegates to
`Grid(system_size, m=n, n=n)` with `n = int(np.sqrt(system_size))`. -/
def mkSquareGrid (system_size : Nat) : Option Arch :=
  if Nat.sqrt system_size * Nat.sqrt system_size = system_size then
    mkGrid system_size (Nat.sqrt system_size) (Nat.sqrt system_size)
  else none

/-- `LineArchitecture.__init__` accepts every size. -/
def mkLine (system_size : Nat) : Arch :=
  { system_size := system_size, name := "line", coupling_map := line_topology system_size }

/-- `HeavyHexArchitecture.__init__`: only sizes in `{5,7,16,27,65,127,433}`
are accepted.  Sizes 65 and 433 are generated programmatically; the other
sizes are looked up from external vendor-published fake-backend tables,
which are outside this repository and therefore not modelled. -/
def mkHeavyHex (system_size : Nat) : Option Arch :=
  if system_size ∈ ([5, 7, 16, 27, 65, 127, 433] : List Nat) then
    some { system_size := system_size, name := "heavyhex",
           coupling_map :=
             if system_size = 65 then get_hummingbird_topology
             else if system_size = 433 then get_osprey_topology
             else [] }
  else none

/-- `RigettiArchitecture.__init__`: requires `system_size == m * n * 8`. -/
def mkRigetti (system_size m n : Nat) : Option Arch :=
  if system_size = m * n * 8 then
    some { system_size := system_size, name := "rigetti_rings",
           coupling_map := rigetti_topology m n }
  else none

/-! ## `utils.find_layout_bounds` -/

/-- One step of the best-layout tracking: `min` starts at `float("inf")`
(modelled by the `none` accumulator, which every finite count beats) and is
replaced exactly when the current count is strictly smaller. -/
def fb_step (best : Option (Perm × Nat)) (x : Perm × Nat) : Option (Perm × Nat) :=
  match best with
  | none => some x
  | some b => if x.2 < b.2 then some x else some b

/-- One step of the worst-layout tracking: `max` starts at `float('-inf')`
and is replaced exactly when the current count is strictly greater. -/
def fw_step (worst : Option (Perm × Nat)) (x : Perm × Nat) : Option (Perm × Nat) :=
  match worst with
  | none => some x
  | some w => if x.2 > w.2 then some x else some w

/-- `utils.find_layout_bounds`: a single pass over the table in insertion
order, tracking the strict-improvement minimum and maximum; returns
`(best_perm, worst_perm)`, both `None` when the table is empty. -/
def find_layout_bounds (result_dict : Table) : Option Perm × Option Perm :=
  ((result_dict.foldl fb_step none).map Prod.fst,
   (result_dict.foldl fw_step none).map Prod.fst)

/-! ## `itertools.permutations` and `utils.get_results_dict` -/

/-- All ways to pick one element of a list, each with the remaining list in
original order — the branching step of `itertools.permutations`. -/
def removals {α : Type} : List α → List (α × List α)
  | [] => []
  | x :: xs => (x, xs) :: (removals xs).map (fun p => (p.1, x :: p.2))

/-- Full-length permutations, with the fuel equal to the list length. -/
def permAux {α : Type} : Nat → List α → List (List α)
  | 0, _ => [[]]
  | n + 1, xs => (removals xs).flatMap (fun p => (permAux n p.2).map (fun l => p.1 :: l))

/-- `list(itertools.permutations(xs))` for the full length of `xs`, in
itertools' enumeration order (lexicographic in the choice indices). -/
def permutationsL {α : Type} (xs : List α) : List (List α) :=
  permAux xs.length xs

/-- `utils.get_results_dict(perms, qc, coupling, seed)`: routes the circuit
once per permutation (`joblib.Parallel` preserves input order) and zips the
permutations with their swap counts.  The external transpiler call is the
abstract function `swaps`, which stands for the swap count that
`transpile(..., initial_layout=perm, ...)` reports for a fixed
circuit/coupling/seed. -/
def get_results_dict (perms : List Perm) (swaps : Perm → Nat) : Table :=
  perms.map (fun p => (p, swaps p))

/-! ## `LayoutByExhaustiveSearch` (`mappings.py`) -/

/-- The mutable fields of `LayoutByExhaustiveSearch` that
`get_virtual_layout` reads and writes. -/
structure ExhState where
  best_layout : Option Perm
  worst_layout : Option Perm
  seed : Option Nat
  result_dict : Option Table

/-- The state right after `__init__`: all four fields are `None`. -/
def ExhState.fresh : ExhState :=
  { best_layout := none, worst_layout := none, seed := none, result_dict := none }

/-- `LayoutByExhaustiveSearch.get_virtual_layout`.  `cache` is the result of
`load_from_pickle`: `none` models a cache file that is missing, unreadable
or fails to unpickle (the bare `except` returns `None` in all three cases).
Returns `(best_layout, worst_layout)` and the updated object state. -/
def exh_get_virtual_layout (no_phys_qubits : Nat) (swaps : Perm → Nat)
    (st : ExhState) (cache : Option Table) :
    (Option Perm × Option Perm) × ExhState :=
  if st.best_layout.isSome ∧ st.worst_layout.isSome ∧ st.seed = none then
    ((st.best_layout, st.worst_layout), st)
  else
    match cache with
    | some pickle_data =>
      let bw := find_layout_bounds pickle_data
      (bw, { st with best_layout := bw.1, worst_layout := bw.2 })
    | none =>
      let perms := permutationsL (List.range no_phys_qubits)
      let result_dict := get_results_dict perms swaps
      let bw := find_layout_bounds result_dict
      (bw, { st with best_layout := bw.1, worst_layout := bw.2,
                     result_dict := some result_dict })

/-- `BestLayout.get_virtual_layout`: runs the search and returns
`self.best_layout`. -/
def bestLayout_get (no_phys_qubits : Nat) (swaps : Perm → Nat)
    (st : ExhState) (cache : Option Table) : Option Perm :=
  ((exh_get_virtual_layout no_phys_qubits swaps st cache).2).best_layout

/-- `WorstLayout.get_virtual_layout`: runs the search and returns
`self.worst_layout`. -/
def worstLayout_get (no_phys_qubits : Nat) (swaps : Perm → Nat)
    (st : ExhState) (cache : Option Table) : Option Perm :=
  ((exh_get_virtual_layout no_phys_qubits swaps st cache).2).worst_layout

/-! ## The pickle cache (`save` / `load_from_pickle`)

The filesystem is modelled as a map from filenames to stored tables;
`pickle.dump`/`pickle.load` round-trip values exactly. -/

/-- The `"_" + str(self.seed) + "_" + self.backend.name` string both call
sites pass as `arc_name` (Python renders an unset seed as `"None"`). -/
def seedArcString (seed : Option Nat) (backend_name : String) : String :=
  "_" ++ (match seed with | none => "None" | some s => toString s) ++ "_" ++ backend_name

/-- The cache filename
`"layout_bins/{}_{}_{}_{}.pickle".format("ExhaustiveSearch", no_phys_qubits, qc_name, arc_name)`,
identical in `save` and `load_from_pickle`. -/
def pickleFilename (no_phys_qubits : Nat) (qc_name arc_name : String) : String :=
  "layout_bins/ExhaustiveSearch_" ++ toString no_phys_qubits ++ "_" ++ qc_name ++ "_"
    ++ arc_name ++ ".pickle"

/-- `LayoutByExhaustiveSearch.save`: writes the table under the key file. -/
def exh_save (store : String → Option Table) (no_phys_qubits : Nat)
    (qc_name arc_name : String) (result_dict : Table) : String → Option Table :=
  fun fn => if fn = pickleFilename no_phys_qubits qc_name arc_name then some result_dict
            else store fn

/-- `LayoutByExhaustiveSearch.load_from_pickle`: reads the key file,
`none` when it is absent. -/
def exh_load_from_pickle (store : String → Option Table) (no_phys_qubits : Nat)
    (qc_name arc_name : String) : Option Table :=
  store (pickleFilename no_phys_qubits qc_name arc_name)

/-! ## `RandomInitialLayout` (`mappings.py`)

Python's global `random` module is modelled as an abstract generator state
`R` with `seedF s` for `random.seed(s)` and `sampleF g n k` for
`random.sample(range(n), k)` run in state `g`, returning the sample and the
advanced state. -/

/-- The fields of `RandomInitialLayout` touched by `get_virtual_layout`. -/
structure RILState where
  seed : Option Nat
  no_virt_qubits : Nat
  no_phys_qubits : Nat
  virtual_layout : Option (List Nat)
  v2p : List (Nat × Nat)
  p2v : List (Nat × Option Nat)

/-- `RandomInitialLayout.__init__`: records the seed and sizes; the base
class asserts `no_phys_qubits >= no_virt_qubits` and initializes
`virtual_layout` to `None`. -/
def mkRandomInitialLayout (no_virt_qubits no_phys_qubits : Nat) (seed : Option Nat) :
    Option RILState :=
  if no_virt_qubits ≤ no_phys_qubits then
    some { seed := seed, no_virt_qubits := no_virt_qubits,
           no_phys_qubits := no_phys_qubits, virtual_layout := none,
           v2p := [], p2v := [] }
  else none

/-- `RandomInitialLayout._set_p2v_from_v2p`, on the `v2p` just built from
`zip(range(no_virt), layout)`. -/
def set_p2v_from_v2p (v2p : List (Nat × Nat)) (no_phys_qubits : Nat) :
    List (Nat × Option Nat) :=
  v2p.map (fun kv => (kv.2, some kv.1)) ++
    ((List.range no_phys_qubits).filter (fun idx => ¬ (v2p.map Prod.snd).contains idx)).map
      (fun idx => (idx, none))

/-- `RandomInitialLayout.get_virtual_layout`: returns the cached layout if
one is set; otherwise re-seeds the global generator when `self.seed` is not
`None`, samples `no_virt_qubits` indices from `range(no_phys_qubits)`, sets
`v2p`/`p2v` — but never stores the result in `self.virtual_layout` — and
returns the sample together with the advanced generator state. -/
def ril_get_virtual_layout {R : Type} (seedF : Nat → R)
    (sampleF : R → Nat → Nat → List Nat × R) (st : RILState) (g : R) :
    List Nat × RILState × R :=
  match st.virtual_layout with
  | some vl => (vl, st, g)
  | none =>
    let g1 := match st.seed with | some s => seedF s | none => g
    let (layout, g2) := sampleF g1 st.no_phys_qubits st.no_virt_qubits
    let v2p := (List.range st.no_virt_qubits).zip layout
    (layout,
     { st with v2p := v2p, p2v := set_p2v_from_v2p v2p st.no_phys_qubits },
     g2)

/-- Two successive `get_virtual_layout` calls on the same
`RandomInitialLayout` object (the second receives the object state and
generator state left by the first); returns both returned layouts. -/
def ril_two_calls {R : Type} (seedF : Nat → R)
    (sampleF : R → Nat → Nat → List Nat × R) (st : RILState) (g : R) :
    List Nat × List Nat :=
  let r1 := ril_get_virtual_layout seedF sampleF st g
  let r2 := ril_get_virtual_layout seedF sampleF r1.2.1 r1.2.2
  (r1.1, r2.1)

/-- A toy deterministic generator used to witness the abstract interface:
`sample` returns `range(k)` and advances the state. -/
def toySample (g n k : Nat) : List Nat × Nat :=
  ((List.range k).map (fun i => (g + i) % n), g + k)

/-- A simple deterministic sampler whose output ignores the generator
state, satisfying the contract of `random.sample(range(n), k)` for
`k ≤ n`. -/
def rangeSample (g n k : Nat) : List Nat × Nat :=
  (List.range k, g + 1)

/-- A concrete stand-in for the external router's swap count: the head of
the permutation (used only to instantiate witnesses). -/
def headCount (p : Perm) : Nat := p.headD 0

/-! ## Coupling-map invariants -/

/-- An edge list is symmetric: the reverse of every edge is present. -/
def SymClosed (l : List Edge) : Prop := ∀ e ∈ l, (e.2, e.1) ∈ l

/-- Every edge has distinct endpoints, both below `bound`. -/
def EdgesOk (bound : Nat) (l : List Edge) : Prop :=
  ∀ e ∈ l, e.1 ≠ e.2 ∧ e.1 < bound ∧ e.2 < bound

/-! ## Lemmas: generic invariant preservation -/

lemma symClosed_append {l₁ l₂ : List Edge} (h₁ : SymClosed l₁) (h₂ : SymClosed l₂) :
    SymClosed (l₁ ++ l₂) := by
  intro e he
  rcases List.mem_append.mp he with h | h
  · exact List.mem_append_left _ (h₁ e h)
  · exact List.mem_append_right _ (h₂ e h)

lemma symClosed_flatMap {α : Type} {l : List α} {f : α → List Edge}
    (h : ∀ x ∈ l, SymClosed (f x)) : SymClosed (l.flatMap f) := by
  intro e he
  rcases List.mem_flatMap.mp he with ⟨x, hx, hex⟩
  exact List.mem_flatMap.mpr ⟨x, hx, h x hx e hex⟩

lemma symClosed_pair (a b : Nat) : SymClosed [(a, b), (b, a)] := by
  intro e he
  rcases List.mem_cons.mp he with h | h
  · subst h; simp
  · rcases List.mem_cons.mp h with h' | h'
    · subst h'; simp
    · simp at h'

lemma symClosed_quad (a b c d : Nat) :
    SymClosed [(a, b), (b, a), (c, d), (d, c)] := by
  intro e he
  simp only [List.mem_cons, List.not_mem_nil, or_false] at he
  rcases he with h | h | h | h <;> subst h <;> simp

lemma symClosed_offset (c : Nat) {l : List Edge} (h : SymClosed l) :
    SymClosed (l.map (fun e => (c + e.1, c + e.2))) := by
  intro e he
  rcases List.mem_map.mp he with ⟨x, hx, hex⟩
  subst hex
  exact List.mem_map.mpr ⟨(x.2, x.1), h x hx, rfl⟩

/-- Appending the reversed copy of every edge symmetrizes any list. -/
lemma symClosed_symmetrize (l : List Edge) :
    SymClosed (l ++ l.map (fun e => (e.2, e.1))) := by
  intro e he
  rcases List.mem_append.mp he with h | h
  · exact List.mem_append_right _ (List.mem_map.mpr ⟨e, h, rfl⟩)
  · rcases List.mem_map.mp h with ⟨x, hx, hex⟩
    subst hex
    exact List.mem_append_left _ hx

lemma edgesOk_append {b : Nat} {l₁ l₂ : List Edge}
    (h₁ : EdgesOk b l₁) (h₂ : EdgesOk b l₂) : EdgesOk b (l₁ ++ l₂) := by
  intro e he
  rcases List.mem_append.mp he with h | h
  · exact h₁ e h
  · exact h₂ e h

lemma edgesOk_flatMap {α : Type} {b : Nat} {l : List α} {f : α → List Edge}
    (h : ∀ x ∈ l, EdgesOk b (f x)) : EdgesOk b (l.flatMap f) := by
  intro e he
  rcases List.mem_flatMap.mp he with ⟨x, hx, hex⟩
  exact h x hx e hex

lemma edgesOk_rev {b : Nat} {l : List Edge} (h : EdgesOk b l) :
    EdgesOk b (l.map (fun e => (e.2, e.1))) := by
  intro e he
  rcases List.mem_map.mp he with ⟨x, hx, hex⟩
  subst hex
  obtain ⟨h1, h2, h3⟩ := h x hx
  exact ⟨fun hc => h1 hc.symm, h3, h2⟩

lemma edgesOk_mono {b b' : Nat} {l : List Edge} (hb : b ≤ b') (h : EdgesOk b l) :
    EdgesOk b' l := by
  intro e he
  obtain ⟨h1, h2, h3⟩ := h e he
  exact ⟨h1, lt_of_lt_of_le h2 hb, lt_of_lt_of_le h3 hb⟩

/-! ## Lemmas: topology invariants -/

lemma line_edgesOk (n : Nat) : EdgesOk n (line_topology n) := by
  intro e he
  rcases List.mem_map.mp he with ⟨i, hi, hei⟩
  rw [List.mem_range] at hi
  subst hei
  refine ⟨by omega, by omega, by omega⟩

lemma grid_forward_edgesOk (m n : Nat) : EdgesOk (m * n) (grid_forward m n) := by
  apply edgesOk_flatMap
  intro i hi
  apply edgesOk_flatMap
  intro j hj
  rw [List.mem_range] at hi hj
  have key : ∀ i' j', i' < m → j' < n → i' * n + j' < m * n := by
    intro i' j' hi' hj'
    calc i' * n + j' < n + i' * n := by omega
    _ = (i' + 1) * n := by rw [Nat.succ_mul, Nat.add_comm]
    _ ≤ m * n := Nat.mul_le_mul_right n hi'
  apply edgesOk_append
  · intro e he
    split at he
    · rename_i him
      simp only [List.mem_singleton] at he
      subst he
      have h1 := key i j hi hj
      have h2 := key (i + 1) j him hj
      have h3 : i * n + n = (i + 1) * n := (Nat.succ_mul i n).symm
      exact ⟨by omega, h1, h2⟩
    · simp at he
  · intro e he
    split at he
    · rename_i hjn
      simp only [List.mem_singleton] at he
      subst he
      have h1 := key i j hi hj
      have h2 := key i (j + 1) hi hjn
      exact ⟨by omega, h1, h2⟩
    · simp at he

lemma grid_symClosed (m n : Nat) : SymClosed (grid_topology m n) :=
  symClosed_symmetrize (grid_forward m n)

lemma grid_edgesOk (m n : Nat) : EdgesOk (m * n) (grid_topology m n) :=
  edgesOk_append (grid_forward_edgesOk m n) (edgesOk_rev (grid_forward_edgesOk m n))

lemma rigetti_ring_chunk_edgesOk {k n : Nat} (hk : k < n) :
    EdgesOk (n * 8) (rigetti_ring_chunk k) := by
  unfold rigetti_ring_chunk
  apply edgesOk_append
  · apply edgesOk_flatMap
    intro i hi
    rw [List.mem_range] at hi
    intro e he
    split at he
    · rename_i hi7
      subst hi7
      simp only [List.mem_cons, List.not_mem_nil, or_false] at he
      rcases he with h | h <;> subst h <;> exact ⟨by omega, by omega, by omega⟩
    · simp only [List.mem_cons, List.not_mem_nil, or_false] at he
      rcases he with h | h <;> subst h <;> exact ⟨by omega, by omega, by omega⟩
  · intro e he
    split at he
    · rename_i hk0
      simp only [List.mem_cons, List.not_mem_nil, or_false] at he
      have hk1 : 1 ≤ k := Nat.one_le_iff_ne_zero.mpr hk0
      rcases he with h | h | h | h <;> subst h <;> exact ⟨by omega, by omega, by omega⟩
    · simp at he

lemma rigetti_ring_chunk_symClosed (k : Nat) : SymClosed (rigetti_ring_chunk k) := by
  unfold rigetti_ring_chunk
  apply symClosed_append
  · apply symClosed_flatMap
    intro i hi
    split
    · exact symClosed_pair _ _
    · exact symClosed_pair _ _
  · split
    · exact symClosed_quad _ _ _ _
    · intro e he; simp at he

lemma create_row_rings_symClosed (row_idx n : Nat) :
    SymClosed (create_row_rings row_idx n) := by
  unfold create_row_rings
  exact symClosed_offset _ (symClosed_flatMap (fun k _ => rigetti_ring_chunk_symClosed k))

lemma create_row_rings_edgesOk {row_idx m : Nat} (n : Nat) (hr : row_idx < m) :
    EdgesOk (m * n * 8) (create_row_rings row_idx n) := by
  unfold create_row_rings
  intro e he
  rcases List.mem_map.mp he with ⟨x, hx, hex⟩
  subst hex
  have hxok : x.1 ≠ x.2 ∧ x.1 < n * 8 ∧ x.2 < n * 8 := by
    refine edgesOk_flatMap (fun k hk => ?_) x hx
    exact rigetti_ring_chunk_edgesOk (List.mem_range.mp hk)
  obtain ⟨h1, h2, h3⟩ := hxok
  have hb : ∀ y, y < n * 8 → row_idx * n * 8 + y < m * n * 8 := by
    intro y hy
    have e1 : row_idx * n * 8 + n * 8 = (row_idx + 1) * n * 8 := by
      rw [Nat.succ_mul, Nat.add_mul]
    have e2 : (row_idx + 1) * n * 8 ≤ m * n * 8 :=
      Nat.mul_le_mul_right 8 (Nat.mul_le_mul_right n hr)
    omega
  exact ⟨by simp only [ne_eq]; omega, hb _ h2, hb _ h3⟩

lemma rigetti_symClosed (m n : Nat) : SymClosed (rigetti_topology m n) := by
  unfold rigetti_topology
  apply symClosed_flatMap
  intro row_idx _
  apply symClosed_append (create_row_rings_symClosed row_idx n)
  split
  · apply symClosed_flatMap
    intro ring_idx _
    exact symClosed_quad _ _ _ _
  · intro e he; simp at he

lemma rigetti_edgesOk (m n : Nat) : EdgesOk (m * n * 8) (rigetti_topology m n) := by
  unfold rigetti_topology
  apply edgesOk_flatMap
  intro row_idx hrow
  rw [List.mem_range] at hrow
  apply edgesOk_append (create_row_rings_edgesOk n hrow)
  intro e he
  split at he
  · rename_i hr0
    rcases List.mem_flatMap.mp he with ⟨ring_idx, hring, hein⟩
    rw [List.mem_range] at hring
    have hr1 : 1 ≤ row_idx := Nat.one_le_iff_ne_zero.mpr hr0
    have hcurr : ring_idx + (row_idx - 1) * n < m * n := by
      have e1 : (row_idx - 1) * n + n = (row_idx - 1 + 1) * n := (Nat.succ_mul _ n).symm
      have e2 : (row_idx - 1 + 1) * n ≤ m * n :=
        Nat.mul_le_mul_right n (by omega)
      omega
    have hprev : ring_idx + row_idx * n < m * n := by
      have e1 : row_idx * n + n = (row_idx + 1) * n := (Nat.succ_mul _ n).symm
      have e2 : (row_idx + 1) * n ≤ m * n := Nat.mul_le_mul_right n (by omega)
      omega
    have hb : ∀ a i, a < m * n → i < 8 → a * 8 + i < m * n * 8 := by
      intro a i ha hi
      have e1 : a * 8 + 8 = (a + 1) * 8 := (Nat.succ_mul a 8).symm
      have e2 : (a + 1) * 8 ≤ m * n * 8 := Nat.mul_le_mul_right 8 (by omega)
      omega
    have hbp5 := hb _ 5 hprev (by omega)
    have hbp4 := hb _ 4 hprev (by omega)
    have hbc0 := hb _ 0 hcurr (by omega)
    have hbc1 := hb _ 1 hcurr (by omega)
    simp only [List.mem_cons, List.not_mem_nil, or_false] at hein
    rcases hein with h | h | h | h <;> subst h
    · exact ⟨by omega, by omega, by omega⟩
    · exact ⟨by omega, by omega, by omega⟩
    · exact ⟨by omega, by omega, by omega⟩
    · exact ⟨by omega, by omega, by omega⟩
  · simp at he

/-! ## Lemmas: heavy-hex topologies -/

lemma edgesOk_subset {b : Nat} {l l' : List Edge} (hsub : l' ⊆ l)
    (h : EdgesOk b l) : EdgesOk b l' :=
  fun e he => h e (hsub he)

lemma pathEdgesAt_edgesOk {off b : Nat} (h : off + 27 ≤ b) :
    EdgesOk b (pathEdgesAt off) := by
  intro e he
  rcases List.mem_map.mp he with ⟨i, hi, hei⟩
  rw [List.mem_range] at hi
  subst hei
  exact ⟨by omega, by omega, by omega⟩

set_option maxRecDepth 4000 in
lemma ospreyRowBridges_edgesOk :
    ∀ k ∈ List.range 12, ∀ e ∈ ospreyRowBridges k,
      e.1 ≠ e.2 ∧ e.1 < 433 ∧ e.2 < 433 := by decide

lemma ospreyBase_edgesOk : EdgesOk 433 ospreyBase := by
  unfold ospreyBase
  apply edgesOk_append (pathEdgesAt_edgesOk (by omega))
  apply edgesOk_flatMap
  intro k hk
  rw [List.mem_range] at hk
  apply edgesOk_append
  · exact pathEdgesAt_edgesOk (by omega)
  · exact ospreyRowBridges_edgesOk k (List.mem_range.mpr hk)

lemma ospreyPruned_edgesOk : EdgesOk 433 ospreyPruned := by
  unfold ospreyPruned
  exact edgesOk_subset
    (List.Subset.trans (List.erase_subset _ _) (List.erase_subset _ _))
    ospreyBase_edgesOk

lemma osprey_edgesOk : EdgesOk 433 get_osprey_topology := by
  unfold get_osprey_topology
  exact edgesOk_append ospreyPruned_edgesOk (edgesOk_rev ospreyPruned_edgesOk)

lemma osprey_symClosed : SymClosed get_osprey_topology :=
  symClosed_symmetrize ospreyPruned

/-- The first bridge edge `[0, 349]` (virtual qubit row 0 to the first
intermediate node) survives both removals. -/
lemma mem_ospreyPruned_bridge : ((0 : Nat), (349 : Nat)) ∈ ospreyPruned := by
  have hbr : ((0 : Nat), (349 : Nat)) ∈ ospreyRowBridges 0 := by decide
  have hbase : ((0 : Nat), (349 : Nat)) ∈ ospreyBase := by
    unfold ospreyBase
    apply List.mem_append_right
    exact List.mem_flatMap.mpr ⟨0, by decide, List.mem_append_right _ hbr⟩
  unfold ospreyPruned
  apply (List.mem_erase_of_ne (by decide)).mpr
  exact (List.mem_erase_of_ne (by decide)).mpr hbase

/-- Its reverse `[349, 0]` is likewise present before symmetrization. -/
lemma mem_ospreyPruned_bridge_rev : ((349 : Nat), (0 : Nat)) ∈ ospreyPruned := by
  have hbr : ((349 : Nat), (0 : Nat)) ∈ ospreyRowBridges 0 := by decide
  have hbase : ((349 : Nat), (0 : Nat)) ∈ ospreyBase := by
    unfold ospreyBase
    apply List.mem_append_right
    exact List.mem_flatMap.mpr ⟨0, by decide, List.mem_append_right _ hbr⟩
  unfold ospreyPruned
  apply (List.mem_erase_of_ne (by decide)).mpr
  exact (List.mem_erase_of_ne (by decide)).mpr hbase

/-- The symmetrization step duplicates every bridge edge (they were already
emitted in both directions), so the osprey edge list has duplicates. -/
lemma osprey_not_nodup : ¬ get_osprey_topology.Nodup := by
  unfold get_osprey_topology
  intro hnd
  rcases List.nodup_append.mp hnd with ⟨-, -, hdisj⟩
  exact hdisj mem_ospreyPruned_bridge
    (List.mem_map.mpr ⟨(349, 0), mem_ospreyPruned_bridge_rev, rfl⟩)

set_option maxRecDepth 4000 in
lemma hummingbird_edgesOk : EdgesOk 65 get_hummingbird_topology := by
  unfold EdgesOk; decide

set_option maxRecDepth 4000 in
lemma hummingbird_symClosed : SymClosed get_hummingbird_topology := by
  unfold SymClosed; decide

set_option maxRecDepth 4000 in
lemma hummingbird_nodup : get_hummingbird_topology.Nodup := by decide

/-! ## Lemmas: permutation enumeration -/

lemma removals_length {α : Type} (xs : List α) : (removals xs).length = xs.length := by
  induction xs with
  | nil => rfl
  | cons x xs ih => simp [removals, ih]

lemma removals_snd_length {α : Type} :
    ∀ {xs : List α} {p : α × List α}, p ∈ removals xs → p.2.length + 1 = xs.length := by
  intro xs
  induction xs with
  | nil => intro p hp; simp [removals] at hp
  | cons x xs ih =>
    intro p hp
    rcases List.mem_cons.mp hp with h | h
    · subst h; rfl
    · rcases List.mem_map.mp h with ⟨q, hq, hpq⟩
      subst hpq
      have := ih hq
      simp only [List.length_cons]
      omega

lemma removals_perm {α : Type} :
    ∀ {xs : List α} {p : α × List α}, p ∈ removals xs → xs.Perm (p.1 :: p.2) := by
  intro xs
  induction xs with
  | nil => intro p hp; simp [removals] at hp
  | cons x xs ih =>
    intro p hp
    rcases List.mem_cons.mp hp with h | h
    · subst h; exact List.Perm.refl _
    · rcases List.mem_map.mp h with ⟨q, hq, hpq⟩
      subst hpq
      exact ((ih hq).cons x).trans (List.Perm.swap q.1 x q.2)

lemma mem_removals_of_mem {α : Type} [DecidableEq α] :
    ∀ {xs : List α} {a : α}, a ∈ xs → (a, xs.erase a) ∈ removals xs := by
  intro xs
  induction xs with
  | nil => intro a ha; simp at ha
  | cons x xs ih =>
    intro a ha
    by_cases hax : a = x
    · subst hax
      simp [removals, List.erase_cons_head]
    · have hmem : a ∈ xs := by
        rcases List.mem_cons.mp ha with h | h
        · exact absurd h hax
        · exact h
      have herase : (x :: xs).erase a = x :: xs.erase a :=
        List.erase_cons_tail (by simp only [beq_iff_eq]; exact fun h => hax h.symm)
      rw [herase]
      exact List.mem_cons.mpr (Or.inr (List.mem_map.mpr ⟨(a, xs.erase a), ih hmem, rfl⟩))

lemma permAux_length {α : Type} :
    ∀ (n : Nat) (xs : List α), xs.length = n → (permAux n xs).length = n.factorial := by
  intro n
  induction n with
  | zero => intro xs _; rfl
  | succ n ih =>
    intro xs hxs
    simp only [permAux, List.length_flatMap]
    have hmap : List.map (List.length ∘ fun p => List.map (fun l => p.1 :: l) (permAux n p.2))
          (removals xs) = List.replicate (n + 1) n.factorial := by
      rw [List.eq_replicate_iff]
      refine ⟨by rw [List.length_map, removals_length, hxs], ?_⟩
      intro b hb
      rcases List.mem_map.mp hb with ⟨p, hp, hbp⟩
      subst hbp
      simp only [Function.comp_apply, List.length_map]
      exact ih p.2 (by have := removals_snd_length hp; omega)
    rw [hmap, List.sum_replicate, smul_eq_mul, Nat.factorial_succ]

lemma permAux_sound {α : Type} :
    ∀ (n : Nat) (xs : List α) (l : List α), xs.length = n → l ∈ permAux n xs → l.Perm xs := by
  intro n
  induction n with
  | zero =>
    intro xs l hxs hl
    simp only [permAux, List.mem_singleton] at hl
    subst hl
    rw [List.length_eq_zero] at hxs
    subst hxs
    exact List.Perm.refl _
  | succ n ih =>
    intro xs l hxs hl
    simp only [permAux] at hl
    rcases List.mem_flatMap.mp hl with ⟨p, hp, hlp⟩
    rcases List.mem_map.mp hlp with ⟨l', hl', hll⟩
    subst hll
    have hlen : p.2.length = n := by have := removals_snd_length hp; omega
    exact ((ih p.2 l' hlen hl').cons p.1).trans (removals_perm hp).symm

lemma permAux_complete {α : Type} [DecidableEq α] :
    ∀ (n : Nat) (xs : List α) (l : List α), xs.length = n → l.Perm xs → l ∈ permAux n xs := by
  intro n
  induction n with
  | zero =>
    intro xs l hxs hperm
    rw [List.length_eq_zero] at hxs
    subst hxs
    rw [List.Perm.eq_nil hperm]
    simp [permAux]
  | succ n ih =>
    intro xs l hxs hperm
    have hlen : l.length = n + 1 := by rw [hperm.length_eq, hxs]
    cases l with
    | nil => simp at hlen
    | cons a l' =>
      obtain ⟨ha, hl'⟩ := List.cons_perm_iff_perm_erase.mp hperm
      have herase : (xs.erase a).length = n := by
        rw [List.length_erase_of_mem ha, hxs]
        omega
      simp only [permAux]
      exact List.mem_flatMap.mpr ⟨(a, xs.erase a), mem_removals_of_mem ha,
        List.mem_map.mpr ⟨l', ih (xs.erase a) l' herase hl', rfl⟩⟩

lemma permutationsL_length {α : Type} (xs : List α) :
    (permutationsL xs).length = xs.length.factorial :=
  permAux_length xs.length xs rfl

lemma permutationsL_sound {α : Type} {xs l : List α} (hl : l ∈ permutationsL xs) :
    l.Perm xs :=
  permAux_sound xs.length xs l rfl hl

lemma permutationsL_complete {α : Type} [DecidableEq α] {xs l : List α}
    (hperm : l.Perm xs) : l ∈ permutationsL xs :=
  permAux_complete xs.length xs l rfl hperm

/-! ## Lemmas: the `find_layout_bounds` scan -/

lemma fb_foldl_cons_eq :
    ∀ (xs : List (Perm × Nat)) (a : Perm × Nat),
      xs.foldl fb_step (some a) =
        (match xs.foldl fb_step none with
         | none => some a
         | some m => some (if m.2 < a.2 then m else a)) := by
  intro xs
  induction xs with
  | nil => intro a; rfl
  | cons x xs ih =>
    intro a
    have hl : (x :: xs).foldl fb_step (some a)
        = xs.foldl fb_step (some (if x.2 < a.2 then x else a)) := by
      simp only [List.foldl_cons, fb_step, apply_ite]
    have hr : (x :: xs).foldl fb_step none = xs.foldl fb_step (some x) := rfl
    rw [hl, hr, ih, ih]
    rcases hfold : xs.foldl fb_step none with - | m
    · rfl
    · dsimp only
      split_ifs <;> first | rfl | (exfalso; omega)

lemma fb_foldl_isSome (xs : List (Perm × Nat)) (hne : xs ≠ []) :
    (xs.foldl fb_step none).isSome := by
  cases xs with
  | nil => exact absurd rfl hne
  | cons x xs =>
    have hr : (x :: xs).foldl fb_step none = xs.foldl fb_step (some x) := rfl
    rw [hr, fb_foldl_cons_eq]
    rcases xs.foldl fb_step none with - | m <;> simp

/-- The minimum scan yields the first table entry attaining the minimum
swap count: everything before it is strictly larger, everything after it is
at least as large. -/
lemma fb_char :
    ∀ {tbl : List (Perm × Nat)} {m : Perm × Nat}, tbl.foldl fb_step none = some m →
      ∃ l₁ l₂, tbl = l₁ ++ m :: l₂ ∧ (∀ x ∈ l₁, m.2 < x.2) ∧ (∀ x ∈ l₂, m.2 ≤ x.2) := by
  intro tbl
  induction tbl with
  | nil => intro m hm; simp [List.foldl] at hm
  | cons x xs ih =>
    intro m hm
    have hr : (x :: xs).foldl fb_step none = xs.foldl fb_step (some x) := rfl
    rw [hr, fb_foldl_cons_eq] at hm
    rcases hfold : xs.foldl fb_step none with - | m'
    · rw [hfold] at hm
      simp only [Option.some.injEq] at hm
      subst hm
      have hxs : xs = [] := by
        by_contra hne
        have := fb_foldl_isSome xs hne
        rw [hfold] at this
        simp at this
      subst hxs
      exact ⟨[], [], rfl, by simp, by simp⟩
    · rw [hfold] at hm
      simp only [Option.some.injEq] at hm
      obtain ⟨l₁, l₂, heq, hbefore, hafter⟩ := ih hfold
      by_cases hlt : m'.2 < x.2
      · rw [if_pos hlt] at hm
        subst hm
        refine ⟨x :: l₁, l₂, by rw [heq, List.cons_append], ?_, hafter⟩
        intro y hy
        rcases List.mem_cons.mp hy with h | h
        · subst h; exact hlt
        · exact hbefore y h
      · rw [if_neg hlt] at hm
        subst hm
        refine ⟨[], xs, rfl, by simp, ?_⟩
        intro y hy
        rw [heq] at hy
        rcases List.mem_append.mp hy with h | h
        · have := hbefore y h; omega
        · rcases List.mem_cons.mp h with h' | h'
          · subst h'; omega
          · have := hafter y h'; omega

lemma fw_foldl_cons_eq :
    ∀ (xs : List (Perm × Nat)) (a : Perm × Nat),
      xs.foldl fw_step (some a) =
        (match xs.foldl fw_step none with
         | none => some a
         | some m => some (if m.2 > a.2 then m else a)) := by
  intro xs
  induction xs with
  | nil => intro a; rfl
  | cons x xs ih =>
    intro a
    have hl : (x :: xs).foldl fw_step (some a)
        = xs.foldl fw_step (some (if x.2 > a.2 then x else a)) := by
      simp only [List.foldl_cons, fw_step, apply_ite]
    have hr : (x :: xs).foldl fw_step none = xs.foldl fw_step (some x) := rfl
    rw [hl, hr, ih, ih]
    rcases hfold : xs.foldl fw_step none with - | m
    · rfl
    · dsimp only
      split_ifs <;> first | rfl | (exfalso; omega)

lemma fw_foldl_isSome (xs : List (Perm × Nat)) (hne : xs ≠ []) :
    (xs.foldl fw_step none).isSome := by
  cases xs with
  | nil => exact absurd rfl hne
  | cons x xs =>
    have hr : (x :: xs).foldl fw_step none = xs.foldl fw_step (some x) := rfl
    rw [hr, fw_foldl_cons_eq]
    rcases xs.foldl fw_step none with - | m <;> simp

/-- The maximum scan yields the first table entry attaining the maximum
swap count. -/
lemma fw_char :
    ∀ {tbl : List (Perm × Nat)} {m : Perm × Nat}, tbl.foldl fw_step none = some m →
      ∃ l₁ l₂, tbl = l₁ ++ m :: l₂ ∧ (∀ x ∈ l₁, x.2 < m.2) ∧ (∀ x ∈ l₂, x.2 ≤ m.2) := by
  intro tbl
  induction tbl with
  | nil => intro m hm; simp [List.foldl] at hm
  | cons x xs ih =>
    intro m hm
    have hr : (x :: xs).foldl fw_step none = xs.foldl fw_step (some x) := rfl
    rw [hr, fw_foldl_cons_eq] at hm
    rcases hfold : xs.foldl fw_step none with - | m'
    · rw [hfold] at hm
      simp only [Option.some.injEq] at hm
      subst hm
      have hxs : xs = [] := by
        by_contra hne
        have := fw_foldl_isSome xs hne
        rw [hfold] at this
        simp at this
      subst hxs
      exact ⟨[], [], rfl, by simp, by simp⟩
    · rw [hfold] at hm
      simp only [Option.some.injEq] at hm
      obtain ⟨l₁, l₂, heq, hbefore, hafter⟩ := ih hfold
      by_cases hlt : m'.2 > x.2
      · rw [if_pos hlt] at hm
        subst hm
        refine ⟨x :: l₁, l₂, by rw [heq, List.cons_append], ?_, hafter⟩
        intro y hy
        rcases List.mem_cons.mp hy with h | h
        · subst h; exact hlt
        · exact hbefore y h
      · rw [if_neg hlt] at hm
        subst hm
        refine ⟨[], xs, rfl, by simp, ?_⟩
        intro y hy
        rw [heq] at hy
        rcases List.mem_append.mp hy with h | h
        · have := hbefore y h; omega
        · rcases List.mem_cons.mp h with h' | h'
          · subst h'; omega
          · have := hafter y h'; omega

/-- Splitting a mapped list around a distinguished image element. -/
lemma map_eq_append_cons {α β : Type} {f : α → β} :
    ∀ {l : List α} {s : List β} {x : β} {t : List β}, l.map f = s ++ x :: t →
      ∃ l₁ y l₂, l = l₁ ++ y :: l₂ ∧ l₁.map f = s ∧ f y = x ∧ l₂.map f = t := by
  intro l
  induction l with
  | nil =>
    intro s x t h
    exact absurd h.symm (List.append_ne_nil_of_right_ne_nil s (by simp))
  | cons a l ih =>
    intro s x t h
    cases s with
    | nil =>
      simp only [List.map_cons, List.nil_append, List.cons.injEq] at h
      exact ⟨[], a, l, rfl, rfl, h.1, h.2⟩
    | cons b s =>
      simp only [List.map_cons, List.cons_append, List.cons.injEq] at h
      obtain ⟨l₁, y, l₂, heq, hs, hx, ht⟩ := ih h.2
      exact ⟨a :: l₁, y, l₂, by rw [heq, List.cons_append], by simp [hs, h.1], hx, ht⟩

lemma permutationsL_range_ne_nil (n : Nat) : permutationsL (List.range n) ≠ [] := by
  intro h
  have hl := permutationsL_length (List.range n)
  rw [h] at hl
  have := Nat.factorial_pos (List.range n).length
  simp only [List.length_nil] at hl
  omega

/-! ## Claim theorems -/

/-- Claim C10: `find_layout_bounds` on an empty result table returns
`(None, None)`, and an exhaustive search whose (cached) permutation table
is empty returns `None` for both best and worst layout instead of
failing. -/
theorem empty_table_bounds_none :
    find_layout_bounds ([] : Table) = (none, none) ∧
    ∀ (n : Nat) (swaps : Perm → Nat),
      (exh_get_virtual_layout n swaps ExhState.fresh (some ([] : Table))).1 = (none, none) :=
  ⟨rfl, fun _ _ => rfl⟩

/-- Claim C8: saving a result table under a
`(search label, physical qubit count, circuit name, seed, architecture name)`
key and reloading it under the same key returns the identical table, so
`find_layout_bounds` yields the same best and worst entries as on the
original uncached table; the cached search path likewise returns exactly
`find_layout_bounds` of the stored table. -/
theorem cache_roundtrip_preserves_bounds
    (store : String → Option Table) (no_phys_qubits : Nat) (qc_name : String)
    (seed : Option Nat) (backend_name : String) (result_dict : Table)
    (swaps : Perm → Nat) :
    exh_load_from_pickle
        (exh_save store no_phys_qubits qc_name (seedArcString seed backend_name) result_dict)
        no_phys_qubits qc_name (seedArcString seed backend_name) = some result_dict ∧
    find_layout_bounds
        ((exh_load_from_pickle
          (exh_save store no_phys_qubits qc_name (seedArcString seed backend_name) result_dict)
          no_phys_qubits qc_name (seedArcString seed backend_name)).getD [])
      = find_layout_bounds result_dict ∧
    (exh_get_virtual_layout no_phys_qubits swaps ExhState.fresh (some result_dict)).1
      = find_layout_bounds result_dict := by
  have hload : exh_load_from_pickle
      (exh_save store no_phys_qubits qc_name (seedArcString seed backend_name) result_dict)
      no_phys_qubits qc_name (seedArcString seed backend_name) = some result_dict := by
    simp [exh_load_from_pickle, exh_save]
  exact ⟨hload, by rw [hload]; rfl, rfl⟩

/-- Claim C7: a missing, unreadable or undeserializable cache file
(`load_from_pickle` returning `None`) is not a failure of
`get_virtual_layout`: the search recomputes the full permutation table from
scratch, stores it in `result_dict`, and still returns best and worst
layouts (both present). -/
theorem missing_cache_recomputes (n : Nat) (swaps : Perm → Nat) :
    (exh_get_virtual_layout n swaps ExhState.fresh none).1
      = find_layout_bounds (get_results_dict (permutationsL (List.range n)) swaps) ∧
    (exh_get_virtual_layout n swaps ExhState.fresh none).2.result_dict
      = some (get_results_dict (permutationsL (List.range n)) swaps) ∧
    (bestLayout_get n swaps ExhState.fresh none).isSome ∧
    (worstLayout_get n swaps ExhState.fresh none).isSome := by
  have htne : get_results_dict (permutationsL (List.range n)) swaps ≠ [] := by
    intro h
    exact permutationsL_range_ne_nil n (List.map_eq_nil.mp h)
  refine ⟨rfl, rfl, ?_, ?_⟩
  · obtain ⟨m, hm⟩ := Option.isSome_iff_exists.mp (fb_foldl_isSome _ htne)
    have hbe : bestLayout_get n swaps ExhState.fresh none
        = ((get_results_dict (permutationsL (List.range n)) swaps).foldl
            fb_step none).map Prod.fst := rfl
    rw [hbe, hm]
    rfl
  · obtain ⟨m, hm⟩ := Option.isSome_iff_exists.mp (fw_foldl_isSome _ htne)
    have hwo : worstLayout_get n swaps ExhState.fresh none
        = ((get_results_dict (permutationsL (List.range n)) swaps).foldl
            fw_step none).map Prod.fst := rfl
    rw [hwo, hm]
    rfl

/-- Claim C6: constructing an architecture with an invalid size aborts
construction with no usable object (the `Option` constructor returns
`none`, carrying no partially built architecture): SquareGrid requires a
perfect-square size, Grid requires `system_size = m*n`, Rigetti requires
`system_size = m*n*8`, and HeavyHex requires a size in
`{5, 7, 16, 27, 65, 127, 433}`. -/
theorem invalid_sizes_abort_construction :
    (∀ s : Nat, mkSquareGrid s = none ↔ ¬ ∃ k, k * k = s) ∧
    (∀ s m n : Nat, mkGrid s m n = none ↔ s ≠ m * n) ∧
    (∀ s m n : Nat, mkRigetti s m n = none ↔ s ≠ m * n * 8) ∧
    (∀ s : Nat, mkHeavyHex s = none ↔ s ∉ ([5, 7, 16, 27, 65, 127, 433] : List Nat)) := by
  refine ⟨?_, ?_, ?_, ?_⟩
  · intro s
    rw [Nat.exists_mul_self s]
    by_cases h : Nat.sqrt s * Nat.sqrt s = s
    · unfold mkSquareGrid mkGrid
      rw [if_pos h, if_pos h.symm]
      simp [h]
    · unfold mkSquareGrid
      rw [if_neg h]
      simp [h]
  · intro s m n
    by_cases h : s = m * n <;> simp [mkGrid, h]
  · intro s m n
    by_cases h : s = m * n * 8 <;> simp [mkRigetti, h]
  · intro s
    by_cases h : s ∈ ([5, 7, 16, 27, 65, 127, 433] : List Nat) <;> simp [mkHeavyHex, h]

/-- Claim C3 counterexample: `LineArchitecture(5)` does not produce 8
directed edges — its coupling map has length 4. -/
theorem line5_not_eight_edges : ((mkLine 5).coupling_map).length ≠ 8 := by decide

/-- Claim C3 (amended): `LineArchitecture(5)` produces exactly the 4
directed edges `[[0,1],[1,2],[2,3],[3,4]]` — one direction per undirected
link of the path 0-1-2-3-4; the reverse directions are not emitted. -/
theorem line5_four_edges :
    (mkLine 5).coupling_map = [(0, 1), (1, 2), (2, 3), (3, 4)] ∧
    ((mkLine 5).coupling_map).length = 4 := ⟨rfl, rfl⟩

/-- Claim C2 counterexample: `LineArchitecture(2)`'s coupling map contains
`(0, 1)` but not `(1, 0)`, so the symmetry invariant fails for
constructed line architectures. -/
theorem line_symmetry_counterexample :
    (0, 1) ∈ (mkLine 2).coupling_map ∧ (1, 0) ∉ (mkLine 2).coupling_map := by
  constructor <;> decide

/-- Claim C2 (amended): the symmetry, no-self-loop and index-range
invariants hold for Grid (any `m, n`), SquareGrid (any successfully
constructed size), Rigetti (any `m, n`) and the programmatic heavy-hex
topologies (sizes 65 and 433); LineArchitecture satisfies the no-self-loop
and index-range invariants but emits each link in one direction only, so
its edge list is not symmetric. -/
theorem topologies_wellformed_amended :
    (∀ m n : Nat, SymClosed (grid_topology m n) ∧ EdgesOk (m * n) (grid_topology m n)) ∧
    (∀ (s : Nat) (a : Arch), mkSquareGrid s = some a →
      SymClosed a.coupling_map ∧ EdgesOk a.system_size a.coupling_map) ∧
    (∀ m n : Nat, SymClosed (rigetti_topology m n) ∧ EdgesOk (m * n * 8) (rigetti_topology m n)) ∧
    (SymClosed get_hummingbird_topology ∧ EdgesOk 65 get_hummingbird_topology) ∧
    (SymClosed get_osprey_topology ∧ EdgesOk 433 get_osprey_topology) ∧
    (∀ s : Nat, EdgesOk s (line_topology s)) := by
  refine ⟨fun m n => ⟨grid_symClosed m n, grid_edgesOk m n⟩, ?_,
    fun m n => ⟨rigetti_symClosed m n, rigetti_edgesOk m n⟩,
    ⟨hummingbird_symClosed, hummingbird_edgesOk⟩,
    ⟨osprey_symClosed, osprey_edgesOk⟩, line_edgesOk⟩
  intro s a ha
  unfold mkSquareGrid mkGrid at ha
  by_cases hsq : Nat.sqrt s * Nat.sqrt s = s
  · rw [if_pos hsq, if_pos hsq.symm] at ha
    cases ha
    have h2 := grid_edgesOk (Nat.sqrt s) (Nat.sqrt s)
    rw [hsq] at h2
    exact ⟨grid_symClosed _ _, h2⟩
  · rw [if_neg hsq] at ha
    exact Option.noConfusion ha

/-- Claim C2 witness: the amended invariants applied at `Grid(2,2)` and at
the successfully constructed `SquareGrid(4)`. -/
theorem topologies_wellformed_witness :
    (2, 0) ∈ grid_topology 2 2 ∧
    SymClosed (grid_topology 2 2) :=
  ⟨(topologies_wellformed_amended.1 2 2).1 (0, 2) (by decide),
   (topologies_wellformed_amended.2.1 4 ⟨4, "grid", grid_topology 2 2⟩
     (by unfold mkSquareGrid mkGrid; norm_num)).1⟩

/-- Claim C5 counterexample: the osprey (433-qubit) generator emits the
bridge edges bidirectionally and then appends a reversed copy of every
edge, so its edge list contains duplicates. -/
theorem osprey_duplicate_counterexample : ¬ get_osprey_topology.Nodup :=
  osprey_not_nodup

/-- Claim C5 (amended): the hummingbird (size 65) generator produces a
fully symmetric edge list with no duplicates, no self-loops and all indices
in `[0, 65)`; the osprey (size 433) generator produces a fully symmetric
edge list with no self-loops and all indices in `[0, 433)`, but with
duplicated bridge edges (each bridge edge appears twice per direction). -/
theorem heavyhex_generators_amended :
    (SymClosed get_hummingbird_topology ∧ get_hummingbird_topology.Nodup ∧
      EdgesOk 65 get_hummingbird_topology) ∧
    (SymClosed get_osprey_topology ∧ EdgesOk 433 get_osprey_topology) :=
  ⟨⟨hummingbird_symClosed, hummingbird_nodup, hummingbird_edgesOk⟩,
   ⟨osprey_symClosed, osprey_edgesOk⟩⟩

/-- Claim C4 counterexample: an unseeded `RandomInitialLayout` (3 physical,
2 virtual qubits) under a concrete deterministic generator model returns
different sequences on two successive `get_virtual_layout` calls — the
result is never cached, and without re-seeding the generator has advanced. -/
theorem random_layout_unseeded_repeat_counterexample :
    (ril_two_calls (fun s => s) toySample
        ⟨none, 2, 3, none, [], []⟩ 0).1
      ≠ (ril_two_calls (fun s => s) toySample
        ⟨none, 2, 3, none, [], []⟩ 0).2 := by decide

/-- Claim C4 (amended): a repeated `get_virtual_layout` call returns the
identical sequence only for seeded instances — each call re-seeds the
generator with the stored seed and re-samples, so the outputs coincide; the
layout is never cached (`virtual_layout` stays `None` after the call).  For
unseeded instances the second call samples from the advanced generator
state and need not return the same sequence. -/
theorem random_layout_repeat_seeded_only {R : Type} (seedF : Nat → R)
    (sampleF : R → Nat → Nat → List Nat × R) (st : RILState) (g : R) (s : Nat)
    (hseed : st.seed = some s) (hvl : st.virtual_layout = none) :
    (ril_two_calls seedF sampleF st g).1 = (ril_two_calls seedF sampleF st g).2 ∧
    (ril_get_virtual_layout seedF sampleF st g).2.1.virtual_layout = none := by
  rcases hsf : sampleF (seedF s) st.no_phys_qubits st.no_virt_qubits with ⟨layout, g2⟩
  constructor
  · simp only [ril_two_calls, ril_get_virtual_layout, hvl, hseed, hsf]
  · simp only [ril_get_virtual_layout, hvl, hseed, hsf]

/-- Claim C4 witness: the amended statement at a concrete seeded instance
(seed 1, 2 virtual and 3 physical qubits, toy generator). -/
theorem random_layout_repeat_seeded_witness :
    (ril_two_calls (fun s => s) toySample ⟨some 1, 2, 3, none, [], []⟩ 0).1
      = (ril_two_calls (fun s => s) toySample ⟨some 1, 2, 3, none, [], []⟩ 0).2 ∧
    (ril_get_virtual_layout (fun s => s) toySample
      ⟨some 1, 2, 3, none, [], []⟩ 0).2.1.virtual_layout = none :=
  random_layout_repeat_seeded_only (fun s => s) toySample
    ⟨some 1, 2, 3, none, [], []⟩ 0 1 rfl rfl

/-- Claim C9: for a seeded `RandomInitialLayout`, every `get_virtual_layout`
call re-seeds the generator with the stored seed before sampling, so any
two runs with equal seed and sizes return the same sequence of
`no_virt_qubits` distinct indices below `no_phys_qubits`, regardless of the
incoming generator states — and the result is never stored in
`virtual_layout`.  The sampler hypothesis is the contract of
`random.sample(range(n), k)`. -/
theorem seeded_random_layout_deterministic {R : Type} (seedF : Nat → R)
    (sampleF : R → Nat → Nat → List Nat × R)
    (hsample : ∀ (g : R) (n k : Nat), k ≤ n →
      (sampleF g n k).1.length = k ∧ (sampleF g n k).1.Nodup ∧
        ∀ x ∈ (sampleF g n k).1, x < n)
    (nv np s : Nat) (st st' : RILState) (g g' : R)
    (hst : mkRandomInitialLayout nv np (some s) = some st)
    (hst' : mkRandomInitialLayout nv np (some s) = some st') :
    (ril_get_virtual_layout seedF sampleF st g).1
      = (ril_get_virtual_layout seedF sampleF st' g').1 ∧
    (ril_get_virtual_layout seedF sampleF st g).1.length = nv ∧
    (ril_get_virtual_layout seedF sampleF st g).1.Nodup ∧
    (∀ x ∈ (ril_get_virtual_layout seedF sampleF st g).1, x < np) ∧
    (ril_get_virtual_layout seedF sampleF st g).2.1.virtual_layout = none := by
  unfold mkRandomInitialLayout at hst hst'
  by_cases hle : nv ≤ np
  · rw [if_pos hle] at hst hst'
    cases hst
    cases hst'
    obtain ⟨h1, h2, h3⟩ := hsample (seedF s) np nv hle
    rcases hsf : sampleF (seedF s) np nv with ⟨layout, g2⟩
    rw [hsf] at h1 h2 h3
    refine ⟨rfl, ?_, ?_, ?_, ?_⟩ <;>
      simp only [ril_get_virtual_layout, hsf] <;>
      first
        | exact h1
        | exact h2
        | exact h3
        | rfl
  · rw [if_neg hle] at hst
    exact Option.noConfusion hst

/-- Claim C9 witness: the statement at a concrete instance (seed 7,
2 virtual and 3 physical qubits, two different generator states) with a
sampler satisfying the `random.sample` contract. -/
theorem seeded_random_layout_witness :
    (ril_get_virtual_layout (fun s => s) rangeSample
        ⟨some 7, 2, 3, none, [], []⟩ 0).1
      = (ril_get_virtual_layout (fun s => s) rangeSample
        ⟨some 7, 2, 3, none, [], []⟩ 99).1 ∧
    (ril_get_virtual_layout (fun s => s) rangeSample
      ⟨some 7, 2, 3, none, [], []⟩ 0).1.length = 2 ∧
    (ril_get_virtual_layout (fun s => s) rangeSample
      ⟨some 7, 2, 3, none, [], []⟩ 0).1.Nodup ∧
    (∀ x ∈ (ril_get_virtual_layout (fun s => s) rangeSample
      ⟨some 7, 2, 3, none, [], []⟩ 0).1, x < 3) ∧
    (ril_get_virtual_layout (fun s => s) rangeSample
      ⟨some 7, 2, 3, none, [], []⟩ 0).2.1.virtual_layout = none :=
  seeded_random_layout_deterministic (fun s => s) rangeSample
    (fun _ n k hk => ⟨List.length_range k, List.nodup_range k,
      fun x hx => lt_of_lt_of_le (List.mem_range.mp hx) hk⟩)
    2 3 7 ⟨some 7, 2, 3, none, [], []⟩ ⟨some 7, 2, 3, none, [], []⟩ 0 99 rfl rfl

/-- Claim C1: with no usable cache, the exhaustive search enumerates
exactly the `no_phys_qubits!` full permutations of `range(no_phys_qubits)`
(the list has length `n!`, contains only permutations of `range n`, and
contains every such permutation), maps each to its swap count, and
`BestLayout.get_virtual_layout` returns the permutation achieving the
minimum count while `WorstLayout.get_virtual_layout` returns the one
achieving the maximum count, the first permutation in enumeration order
winning on ties (everything earlier in the list is strictly worse,
everything later is no better). -/
theorem exhaustive_search_enumeration_and_extrema (n : Nat)
    (swaps : Perm → Nat) (hn : 0 < n) :
    (permutationsL (List.range n)).length = n.factorial ∧
    (∀ l ∈ permutationsL (List.range n), l.Perm (List.range n)) ∧
    (∀ l : List Nat, l.Perm (List.range n) → l ∈ permutationsL (List.range n)) ∧
    (∃ b l₁ l₂, bestLayout_get n swaps ExhState.fresh none = some b ∧
      permutationsL (List.range n) = l₁ ++ b :: l₂ ∧
      (∀ p ∈ l₁, swaps b < swaps p) ∧ (∀ p ∈ l₂, swaps b ≤ swaps p)) ∧
    (∃ w l₃ l₄, worstLayout_get n swaps ExhState.fresh none = some w ∧
      permutationsL (List.range n) = l₃ ++ w :: l₄ ∧
      (∀ p ∈ l₃, swaps p < swaps w) ∧ (∀ p ∈ l₄, swaps p ≤ swaps w)) := by
  have htne : get_results_dict (permutationsL (List.range n)) swaps ≠ [] := fun h =>
    permutationsL_range_ne_nil n (List.map_eq_nil.mp h)
  refine ⟨by rw [permutationsL_length, List.length_range],
    fun l hl => permutationsL_sound hl,
    fun l hl => permutationsL_complete hl, ?_, ?_⟩
  · obtain ⟨mb, hmb⟩ := Option.isSome_iff_exists.mp (fb_foldl_isSome _ htne)
    obtain ⟨L₁, L₂, hsplit, hbef, haft⟩ := fb_char hmb
    rw [get_results_dict] at hsplit
    obtain ⟨l₁, y, l₂, hpse, hm₁, hfy, hm₂⟩ := map_eq_append_cons hsplit
    have hmb1 : mb.1 = y := by rw [← hfy]
    have hmb2 : mb.2 = swaps y := by rw [← hfy]
    refine ⟨y, l₁, l₂, ?_, hpse, ?_, ?_⟩
    · have hbe : bestLayout_get n swaps ExhState.fresh none
          = ((get_results_dict (permutationsL (List.range n)) swaps).foldl
              fb_step none).map Prod.fst := rfl
      rw [hbe, hmb, Option.map_some', hmb1]
    · intro p hp
      have hin : (p, swaps p) ∈ L₁ := by
        rw [← hm₁]
        exact List.mem_map.mpr ⟨p, hp, rfl⟩
      have := hbef _ hin
      rw [hmb2] at this
      exact this
    · intro p hp
      have hin : (p, swaps p) ∈ L₂ := by
        rw [← hm₂]
        exact List.mem_map.mpr ⟨p, hp, rfl⟩
      have := haft _ hin
      rw [hmb2] at this
      exact this
  · obtain ⟨mw, hmw⟩ := Option.isSome_iff_exists.mp (fw_foldl_isSome _ htne)
    obtain ⟨L₁, L₂, hsplit, hbef, haft⟩ := fw_char hmw
    rw [get_results_dict] at hsplit
    obtain ⟨l₃, y, l₄, hpse, hm₁, hfy, hm₂⟩ := map_eq_append_cons hsplit
    have hmw1 : mw.1 = y := by rw [← hfy]
    have hmw2 : mw.2 = swaps y := by rw [← hfy]
    refine ⟨y, l₃, l₄, ?_, hpse, ?_, ?_⟩
    · have hwo : worstLayout_get n swaps ExhState.fresh none
          = ((get_results_dict (permutationsL (List.range n)) swaps).foldl
              fw_step none).map Prod.fst := rfl
      rw [hwo, hmw, Option.map_some', hmw1]
    · intro p hp
      have hin : (p, swaps p) ∈ L₁ := by
        rw [← hm₁]
        exact List.mem_map.mpr ⟨p, hp, rfl⟩
      have := hbef _ hin
      rw [hmw2] at this
      exact this
    · intro p hp
      have hin : (p, swaps p) ∈ L₂ := by
        rw [← hm₂]
        exact List.mem_map.mpr ⟨p, hp, rfl⟩
      have := haft _ hin
      rw [hmw2] at this
      exact this

/-- Claim C1 witness: the search over 2 physical qubits with the
head-of-permutation count function. -/
theorem exhaustive_search_enumeration_witness :
    0 < 2 ∧
    ((permutationsL (List.range 2)).length = Nat.factorial 2 ∧
    (∀ l ∈ permutationsL (List.range 2), l.Perm (List.range 2)) ∧
    (∀ l : List Nat, l.Perm (List.range 2) → l ∈ permutationsL (List.range 2)) ∧
    (∃ b l₁ l₂, bestLayout_get 2 headCount ExhState.fresh none = some b ∧
      permutationsL (List.range 2) = l₁ ++ b :: l₂ ∧
      (∀ p ∈ l₁, headCount b < headCount p) ∧ (∀ p ∈ l₂, headCount b ≤ headCount p)) ∧
    (∃ w l₃ l₄, worstLayout_get 2 headCount ExhState.fresh none = some w ∧
      permutationsL (List.range 2) = l₃ ++ w :: l₄ ∧
      (∀ p ∈ l₃, headCount p < headCount w) ∧ (∀ p ∈ l₄, headCount p ≤ headCount w))) :=
  ⟨by decide, exhaustive_search_enumeration_and_extrema 2 headCount (by decide)⟩

end QLayout
